import Mathlib

/-
  Verification of the PolicyReporter-FSM finite-automaton library.

  The Go sources under `fsm/` (and the parallel, earlier thread-safe copy of
  `automaton.go` kept in the tree) are shallowly embedded below:

  * Go's `map[Q]bool` / `map[S]bool` sets become lists with membership
    semantics (Go maps are unordered; every property proved here is
    order-independent or is an existential over the entries).
  * Go's `map[Q]map[S]Q` transition table becomes an association list with at
    most one entry per `(state, symbol)` key; lookup is `lookupTransition`.
  * Go's zero value `*new(Q)` / `var zero Q` is modelled by `default` from an
    `Inhabited Q` instance (for `Q = String` this is `""`, exactly Go's zero).
  * A Go `(value, error)` return with receiver mutation becomes a structure
    holding the value, an `Option` error and the post-call automaton.
-/

namespace Fsm

/-- Finite automaton 5-tuple plus the mutable execution cursor, mirroring
`FiniteAutomaton[Q, S]` in `fsm/automaton.go`. -/
structure FiniteAutomaton (Q S : Type) where
  states : List Q
  alphabet : List S
  initialState : Q
  acceptingStates : List Q
  transitions : List (Q × S × Q)
  currentState : Q
deriving DecidableEq

/-- The two errors `Step` can produce (`fmt.Errorf` calls in
`fsm/automaton.go`, lines 150-166), tagged with their payloads. -/
inductive StepError (Q S : Type) where
  | symbolNotInAlphabet (symbol : S)
  | undefinedTransition (state : Q) (symbol : S)
deriving DecidableEq

/-- Result of `Step`: the returned state value, the returned error, and the
automaton after the call (Go mutates the receiver). -/
structure StepResult (Q S : Type) where
  value : Q
  error : Option (StepError Q S)
  automaton : FiniteAutomaton Q S
deriving DecidableEq

variable {Q S : Type} [DecidableEq Q] [DecidableEq S]

/-- Lookup `fa.transitions[state][symbol]` (presence-aware, Go's
`nextState, exists := fa.transitions[fa.currentState][symbol]`). -/
def lookupTransition (trans : List (Q × S × Q)) (state : Q) (symbol : S) :
    Option Q :=
  trans.findSome? fun e =>
    if e.1 = state ∧ e.2.1 = symbol then some e.2.2 else none

/-- `Reset` (`fsm/automaton.go`, lines 144-146): set `currentState := q0`. -/
def FiniteAutomaton.Reset (fa : FiniteAutomaton Q S) : FiniteAutomaton Q S :=
  { fa with currentState := fa.initialState }

/-- `IsAcceptingState` (`fsm/automaton.go`, lines 134-136). -/
def FiniteAutomaton.IsAcceptingState (fa : FiniteAutomaton Q S) (state : Q) :
    Bool :=
  decide (state ∈ fa.acceptingStates)

/-- `IsCurrentStateAccepting` (`fsm/automaton.go`, lines 139-141). -/
def FiniteAutomaton.IsCurrentStateAccepting (fa : FiniteAutomaton Q S) : Bool :=
  fa.IsAcceptingState fa.currentState

/-- `Step` (`fsm/automaton.go`, lines 150-166): alphabet check first, then
transition lookup; on either failure Go returns `var zero Q` (here `default`)
and leaves the receiver untouched; on success it assigns `currentState` and
returns it. -/
def FiniteAutomaton.Step [Inhabited Q] (fa : FiniteAutomaton Q S) (symbol : S) :
    StepResult Q S :=
  if symbol ∉ fa.alphabet then
    { value := default
      error := some (.symbolNotInAlphabet symbol)
      automaton := fa }
  else
    match lookupTransition fa.transitions fa.currentState symbol with
    | none =>
      { value := default
        error := some (.undefinedTransition fa.currentState symbol)
        automaton := fa }
    | some nextState =>
      { value := nextState
        error := none
        automaton := { fa with currentState := nextState } }

/-- The `for _, symbol := range input` loop of `ProcessInput`
(`fsm/automaton.go`, lines 174-181). -/
def processLoop [Inhabited Q] (fa : FiniteAutomaton Q S) :
    List S → (Bool × Option (StepError Q S)) × FiniteAutomaton Q S
  | [] => ((fa.IsCurrentStateAccepting, none), fa)
  | symbol :: rest =>
    let r := fa.Step symbol
    match r.error with
    | some e => ((false, some e), r.automaton)
    | none => processLoop r.automaton rest

/-- `ProcessInput` (`fsm/automaton.go`, lines 171-182): reset, then fold the
input through `Step`, aborting on the first error. -/
def FiniteAutomaton.ProcessInput [Inhabited Q] (fa : FiniteAutomaton Q S)
    (input : List S) : (Bool × Option (StepError Q S)) × FiniteAutomaton Q S :=
  processLoop fa.Reset input

/-- The accumulation loop of `ProcessInputWithTrace`
(`fsm/automaton.go`, lines 190-196); `acc` is the trace built so far. -/
def traceLoop [Inhabited Q] (fa : FiniteAutomaton Q S) (acc : List Q) :
    List S →
      (List Q × Bool × Option (StepError Q S)) × FiniteAutomaton Q S
  | [] => ((acc, fa.IsCurrentStateAccepting, none), fa)
  | symbol :: rest =>
    let r := fa.Step symbol
    match r.error with
    | some e => ((acc, false, some e), r.automaton)
    | none => traceLoop r.automaton (acc ++ [r.automaton.currentState]) rest

/-- `ProcessInputWithTrace` (`fsm/automaton.go`, lines 186-199): reset, seed
the trace with the post-reset current state, then step and append. -/
def FiniteAutomaton.ProcessInputWithTrace [Inhabited Q]
    (fa : FiniteAutomaton Q S) (input : List S) :
    (List Q × Bool × Option (StepError Q S)) × FiniteAutomaton Q S :=
  let fa0 := fa.Reset
  traceLoop fa0 [fa0.currentState] input

/-- The states reached by the successful prefix of `input` when stepping from
`fa`: one entry per successful `Step`, stopping at the first error.  Used to
state which states a trace "actually reached". -/
def reachedStates [Inhabited Q] (fa : FiniteAutomaton Q S) :
    List S → List Q
  | [] => []
  | symbol :: rest =>
    let r := fa.Step symbol
    match r.error with
    | some _ => []
    | none => r.value :: reachedStates r.automaton rest

/-- One violation produced by a validation rule; each constructor tags one of
the error messages built in `fsm/automaton.go` / `fsm/validation.go`. -/
inductive Violation (Q S : Type) where
  | emptyStates
  | emptyAlphabet
  | initialNotInStates (state : Q)
  | acceptingNotInStates (state : Q)
  | transitionFromNotInStates (state : Q)
  | transitionToNotInStates (state : Q)
  | transitionSymbolNotInAlphabet (symbol : S)
  | tooManyStates (count max : Nat)
  | tooManySymbols (count max : Nat)
  | tooManyTransitions (count max : Nat)
  | missingTransition (state : Q) (symbol : S)
  | unreachableState (state : Q)
  | duplicateTransition (state : Q) (symbol : S)
  | badStateName (state : Q)
deriving DecidableEq

/-- `FiniteAutomaton.Validate` (`fsm/automaton.go`, lines 203-232): the three
checks run in order and the method returns on the FIRST failing check
(initial state, then accepting states, then transition endpoints/symbols). -/
def FiniteAutomaton.Validate (fa : FiniteAutomaton Q S) :
    Option (Violation Q S) :=
  if fa.initialState ∉ fa.states then
    some (.initialNotInStates fa.initialState)
  else
    match fa.acceptingStates.find? (fun state => decide (state ∉ fa.states)) with
    | some state => some (.acceptingNotInStates state)
    | none =>
      fa.transitions.findSome? fun e =>
        if e.1 ∉ fa.states then some (.transitionFromNotInStates e.1)
        else if e.2.1 ∉ fa.alphabet then
          some (.transitionSymbolNotInAlphabet e.2.1)
        else if e.2.2 ∉ fa.states then some (.transitionToNotInStates e.2.2)
        else none

/-- Legacy `Builder.Build` (`fsm/builder.go`, lines 55-60): returns the
automaton when `FiniteAutomaton.Validate` reports nothing, the error
otherwise.  The fluent builder only assembles the automaton value, so it is
modelled by its finalization step applied to the assembled automaton. -/
def Builder.Build (fa : FiniteAutomaton Q S) :
    Except (Violation Q S) (FiniteAutomaton Q S) :=
  match fa.Validate with
  | some v => .error v
  | none => .ok fa

/-- `ValidatorConfig` (`fsm/validation.go`, lines 24-35).  Go stores the
limits as `int` but only installs a limit rule when the field is `> 0`, so a
non-positive value and `0` behave identically and `Nat` is faithful. -/
structure ValidatorConfig where
  StrictMode : Bool
  MaxStates : Nat
  MaxAlphabetSize : Nat
  MaxTransitions : Nat
  RequireCompleteTransitions : Bool
deriving DecidableEq

/-- `DefaultValidatorConfig` (`fsm/validation.go`, lines 38-46). -/
def DefaultValidatorConfig : ValidatorConfig :=
  { StrictMode := false
    MaxStates := 1000
    MaxAlphabetSize := 100
    MaxTransitions := 10000
    RequireCompleteTransitions := false }

/-- `StrictValidatorConfig` (`fsm/validation.go`, lines 49-57). -/
def StrictValidatorConfig : ValidatorConfig :=
  { StrictMode := true
    MaxStates := 100
    MaxAlphabetSize := 50
    MaxTransitions := 1000
    RequireCompleteTransitions := true }

/-- Models the `reflect.TypeOf(state).Kind() == reflect.String` test of
`validateStateNaming` (`fsm/validation.go`, line 278): `str?` yields the
underlying string for string-kinded state types and `none` otherwise. -/
class GoStateRepr (Q : Type) where
  str? : Q → Option String

instance : GoStateRepr String := ⟨some⟩

instance : GoStateRepr Nat := ⟨fun _ => none⟩

/-- `validateNonEmptyStates` (`fsm/validation.go`, lines 125-130). -/
def validateNonEmptyStates (fa : FiniteAutomaton Q S) :
    Option (Violation Q S) :=
  if fa.states.length = 0 then some .emptyStates else none

/-- `validateNonEmptyAlphabet` (`fsm/validation.go`, lines 132-137). -/
def validateNonEmptyAlphabet (fa : FiniteAutomaton Q S) :
    Option (Violation Q S) :=
  if fa.alphabet.length = 0 then some .emptyAlphabet else none

/-- `validateInitialStateInStates` (`fsm/validation.go`, lines 139-144). -/
def validateInitialStateInStates (fa : FiniteAutomaton Q S) :
    Option (Violation Q S) :=
  if fa.initialState ∉ fa.states then
    some (.initialNotInStates fa.initialState)
  else none

/-- `validateAcceptingStatesInStates` (`fsm/validation.go`, lines 146-153). -/
def validateAcceptingStatesInStates (fa : FiniteAutomaton Q S) :
    Option (Violation Q S) :=
  (fa.acceptingStates.find? (fun state => decide (state ∉ fa.states))).map
    (fun state => .acceptingNotInStates state)

/-- `validateTransitionStatesInStates` (`fsm/validation.go`, lines 155-167). -/
def validateTransitionStatesInStates (fa : FiniteAutomaton Q S) :
    Option (Violation Q S) :=
  fa.transitions.findSome? fun e =>
    if e.1 ∉ fa.states then some (.transitionFromNotInStates e.1)
    else if e.2.2 ∉ fa.states then some (.transitionToNotInStates e.2.2)
    else none

/-- `validateTransitionSymbolsInAlphabet` (`fsm/validation.go`,
lines 169-178). -/
def validateTransitionSymbolsInAlphabet (fa : FiniteAutomaton Q S) :
    Option (Violation Q S) :=
  fa.transitions.findSome? fun e =>
    if e.2.1 ∉ fa.alphabet then some (.transitionSymbolNotInAlphabet e.2.1)
    else none

/-- `validateMaxStates` (`fsm/validation.go`, lines 180-189). -/
def validateMaxStates (maxStates : Nat) (fa : FiniteAutomaton Q S) :
    Option (Violation Q S) :=
  if fa.states.length > maxStates then
    some (.tooManyStates fa.states.length maxStates)
  else none

/-- `validateMaxAlphabetSize` (`fsm/validation.go`, lines 191-200). -/
def validateMaxAlphabetSize (maxSize : Nat) (fa : FiniteAutomaton Q S) :
    Option (Violation Q S) :=
  if fa.alphabet.length > maxSize then
    some (.tooManySymbols fa.alphabet.length maxSize)
  else none

/-- `validateMaxTransitions` (`fsm/validation.go`, lines 202-215); the total
is the number of `(state, symbol)` entries of the table. -/
def validateMaxTransitions (maxTransitions : Nat) (fa : FiniteAutomaton Q S) :
    Option (Violation Q S) :=
  if fa.transitions.length > maxTransitions then
    some (.tooManyTransitions fa.transitions.length maxTransitions)
  else none

/-- `validateCompleteTransitions` (`fsm/validation.go`, lines 217-226),
translated as written: a pair is flagged when the state has no row in the
table (`!exists`) OR when indexing the row yields the ZERO VALUE of `Q`
(`transitions[symbol] == *new(Q)`), which conflates an absent entry with a
present entry whose target is the zero value. -/
def validateCompleteTransitions [Inhabited Q] (fa : FiniteAutomaton Q S) :
    Option (Violation Q S) :=
  fa.states.findSome? fun state =>
    fa.alphabet.findSome? fun symbol =>
      if ¬ fa.transitions.any (fun e => decide (e.1 = state)) then
        some (.missingTransition state symbol)
      else if (lookupTransition fa.transitions state symbol).getD default
          = default then
        some (.missingTransition state symbol)
      else none

/-- The targets of all table entries leaving `state`
(`for _, nextState := range automaton.transitions[current]`). -/
def successors (trans : List (Q × S × Q)) (state : Q) : List Q :=
  (trans.filter (fun e => decide (e.1 = state))).map (fun e => e.2.2)

/-- One pass of the inner marking loop of `validateNoUnreachableStates`
(`fsm/validation.go`, lines 238-245): mark and enqueue each successor that is
not yet reachable. -/
def enqueueNew (reach queue : List Q) : List Q → List Q × List Q
  | [] => (reach, queue)
  | t :: ts =>
    if t ∈ reach then enqueueNew reach queue ts
    else enqueueNew (reach ++ [t]) (queue ++ [t]) ts

/-- The breadth-first-search loop of `validateNoUnreachableStates`
(`fsm/validation.go`, lines 233-246), with explicit fuel.  Every dequeue
consumes one fuel unit; `bfsFuel` below is enough for the queue to drain. -/
def bfsLoop (trans : List (Q × S × Q)) :
    Nat → List Q → List Q → List Q
  | 0, reach, _ => reach
  | _ + 1, reach, [] => reach
  | fuel + 1, reach, current :: queue =>
    let rq := enqueueNew reach queue (successors trans current)
    bfsLoop trans fuel rq.1 rq.2

/-- Fuel bound for `bfsLoop`: at most one dequeue per marked state, and at
most `1 + trans.length` states are ever marked. -/
def bfsFuel (trans : List (Q × S × Q)) : Nat := trans.length + 1

/-- The `reachable` set computed by `validateNoUnreachableStates`
(`fsm/validation.go`, lines 229-246): BFS from the initial state. -/
def reachableStates (fa : FiniteAutomaton Q S) : List Q :=
  bfsLoop fa.transitions (bfsFuel fa.transitions)
    [fa.initialState] [fa.initialState]

/-- `validateNoUnreachableStates` (`fsm/validation.go`, lines 228-256): a
violation for a state of `Q` missed by the breadth-first search. -/
def validateNoUnreachableStates (fa : FiniteAutomaton Q S) :
    Option (Violation Q S) :=
  let reach := reachableStates fa
  fa.states.findSome? fun state =>
    if state ∉ reach then some (.unreachableState state) else none

/-- `validateNoDuplicateTransitions` (`fsm/validation.go`, lines 258-270):
two entries for the same `(state, symbol)` key with different targets.  (A Go
map cannot hold such a pair, so on map-backed tables the rule never fires;
the association-list model makes the check it performs explicit.) -/
def validateNoDuplicateTransitions (fa : FiniteAutomaton Q S) :
    Option (Violation Q S) :=
  fa.transitions.findSome? fun e =>
    if fa.transitions.any (fun e2 =>
        decide (e2.1 = e.1 ∧ e2.2.1 = e.2.1 ∧ e2.2.2 ≠ e.2.2)) then
      some (.duplicateTransition e.1 e.2.1)
    else none

/-- The word split of `strings.Fields`: maximal whitespace-free runs. -/
def goFields (s : String) : List String :=
  (s.split Char.isWhitespace).filter (fun w => w ≠ "")

/-- `validateStateNaming` (`fsm/validation.go`, lines 272-298), applied only
to string-kinded state types (via `GoStateRepr`): rejects whitespace-only
names, multi-word names, and names longer than `MaxStateNameLength = 50`. -/
def validateStateNaming [GoStateRepr Q] (fa : FiniteAutomaton Q S) :
    Option (Violation Q S) :=
  fa.states.findSome? fun state =>
    match GoStateRepr.str? state with
    | none => none
    | some text =>
      if text.trim = "" then some (.badStateName state)
      else if ' ' ∈ text.toList ∧ (goFields text).length > 1 then
        some (.badStateName state)
      else if text.length > 50 then some (.badStateName state)
      else none

/-- The rule list assembled by `NewInputValidator`
(`fsm/validation.go`, lines 66-103): six required rules, then the limit
rules gated on positive limits, then the completeness rule, then the strict
bundle. -/
def NewInputValidatorRules [Inhabited Q] [GoStateRepr Q]
    (config : ValidatorConfig) :
    List (FiniteAutomaton Q S → Option (Violation Q S)) :=
  [validateNonEmptyStates, validateNonEmptyAlphabet,
   validateInitialStateInStates, validateAcceptingStatesInStates,
   validateTransitionStatesInStates, validateTransitionSymbolsInAlphabet]
  ++ (if config.MaxStates > 0 then [validateMaxStates config.MaxStates]
      else [])
  ++ (if config.MaxAlphabetSize > 0 then
        [validateMaxAlphabetSize config.MaxAlphabetSize]
      else [])
  ++ (if config.MaxTransitions > 0 then
        [validateMaxTransitions config.MaxTransitions]
      else [])
  ++ (if config.RequireCompleteTransitions then [validateCompleteTransitions]
      else [])
  ++ (if config.StrictMode then
        [validateNoUnreachableStates, validateNoDuplicateTransitions,
         validateStateNaming]
      else [])

/-- `InputValidator.Validate` (`fsm/validation.go`, lines 111-121): run every
rule and collect every violation (the `ErrorCollector`); the Go call returns
`nil` exactly when the collected list is empty. -/
def InputValidator.Validate [Inhabited Q] [GoStateRepr Q]
    (config : ValidatorConfig) (fa : FiniteAutomaton Q S) :
    List (Violation Q S) :=
  (NewInputValidatorRules config).filterMap (fun rule => rule fa)

/-- Error of the validator-backed `AutomatonBuilder.Build`: either the
collected list of the `InputValidator` or the single violation of
`FiniteAutomaton.Validate`. -/
inductive BuildError (Q S : Type) where
  | collected (violations : List (Violation Q S))
  | single (violation : Violation Q S)
deriving DecidableEq

/-- Validator-backed `AutomatonBuilder.Build` (second generation of
`fsm/builder.go`, lines 148-160): comprehensive validation first, then the
built-in `Validate`, then the automaton. -/
def AutomatonBuilder.Build [Inhabited Q] [GoStateRepr Q]
    (config : ValidatorConfig) (fa : FiniteAutomaton Q S) :
    Except (BuildError Q S) (FiniteAutomaton Q S) :=
  let violations := InputValidator.Validate config fa
  if violations ≠ [] then .error (.collected violations)
  else
    match fa.Validate with
    | some v => .error (.single v)
    | none => .ok fa

/-- `ValidateInputSequence` (`fsm/validation.go`, lines 320-332) minus the
nil-slice check (a Lean list cannot be nil): the first position whose symbol
is outside the alphabet, with that symbol. -/
def validateInputSeq (alphabet : List S) : Nat → List S → Option (Nat × S)
  | _, [] => none
  | i, symbol :: rest =>
    if symbol ∉ alphabet then some (i, symbol)
    else validateInputSeq alphabet (i + 1) rest

/-- Error union for the input-validating process variant. -/
inductive ProcessError (Q S : Type) where
  | invalidInput (position : Nat) (symbol : S)
  | step (e : StepError Q S)
deriving DecidableEq

/-- `ProcessInputWithTrace` of the parallel thread-safe automaton copy
(lines 258-276 of that file): it first runs `ValidateInputSequence` and on a
rejected symbol returns a NIL trace (modelled `[]`) with the error; only
then does it reset and run the same trace loop. -/
def ProcessInputWithTraceValidated [Inhabited Q] (fa : FiniteAutomaton Q S)
    (input : List S) :
    (List Q × Bool × Option (ProcessError Q S)) × FiniteAutomaton Q S :=
  match validateInputSeq fa.alphabet 0 input with
  | some bad => (([], false, some (.invalidInput bad.1 bad.2)), fa)
  | none =>
    let fa0 := fa.Reset
    let r := traceLoop fa0 [fa0.currentState] input
    ((r.1.1, r.1.2.1, r.1.2.2.map .step), r.2)

/-- Reachability along the transition table: the reflexive-transitive
closure the spec means by "reachable from `initialState` via some sequence
of transitions". -/
inductive Reachable (trans : List (Q × S × Q)) (start : Q) : Q → Prop
  | refl : Reachable trans start start
  | step {q t : Q} (hq : Reachable trans start q)
      (ht : ∃ s, (q, s, t) ∈ trans) : Reachable trans start t

/-- The strings-ending-in-b automaton used throughout the Go test suite. -/
def endsInB : FiniteAutomaton String Char :=
  { states := ["q0", "q1"]
    alphabet := ['a', 'b']
    initialState := "q0"
    acceptingStates := ["q1"]
    transitions := [("q0", 'a', "q0"), ("q0", 'b', "q1"),
                    ("q1", 'a', "q0"), ("q1", 'b', "q1")]
    currentState := "q0" }

/-- One state, EMPTY alphabet, no transitions: the automaton on which the
two validation generations disagree. -/
def emptyAlphabetFA : FiniteAutomaton String Char :=
  { states := ["q0"]
    alphabet := []
    initialState := "q0"
    acceptingStates := []
    transitions := []
    currentState := "q0" }

/-- Two independent structural defects at once: the accepting state `X` is
dangling and the transition target `Z` is dangling. -/
def twoDefectFA : FiniteAutomaton String Char :=
  { states := ["q0"]
    alphabet := ['a']
    initialState := "q0"
    acceptingStates := ["X"]
    transitions := [("q0", 'a', "Z")]
    currentState := "q0" }

/-- A COMPLETE transition table over `states × alphabet` in which one target
is the zero value `""` of the state type. -/
def zeroTargetFA : FiniteAutomaton String Char :=
  { states := ["q0", ""]
    alphabet := ['a']
    initialState := "q0"
    acceptingStates := []
    transitions := [("q0", 'a', ""), ("", 'a', "q0")]
    currentState := "q0" }

/-- `q2` is in the state set but no transition path from `q0` reaches it. -/
def unreachableFA : FiniteAutomaton String Char :=
  { states := ["q0", "q1", "q2"]
    alphabet := ['a']
    initialState := "q0"
    acceptingStates := ["q1"]
    transitions := [("q0", 'a', "q1"), ("q1", 'a', "q0")]
    currentState := "q0" }

/-- One-state automaton whose alphabet rejects `b`, exercising the
pre-validating trace variant. -/
def tinyFA : FiniteAutomaton String Char :=
  { states := ["q0"]
    alphabet := ['a']
    initialState := "q0"
    acceptingStates := ["q0"]
    transitions := [("q0", 'a', "q0")]
    currentState := "q0" }

attribute [ext] FiniteAutomaton

/- ------------------------------------------------------------------ -/
/- Helper lemmas                                                       -/
/- ------------------------------------------------------------------ -/

theorem Step_of_not_mem [Inhabited Q] (fa : FiniteAutomaton Q S) (symbol : S)
    (h : symbol ∉ fa.alphabet) :
    fa.Step symbol =
      ⟨default, some (.symbolNotInAlphabet symbol), fa⟩ := by
  simp [FiniteAutomaton.Step, h]

theorem Step_of_lookup_none [Inhabited Q] (fa : FiniteAutomaton Q S)
    (symbol : S) (h : symbol ∈ fa.alphabet)
    (hl : lookupTransition fa.transitions fa.currentState symbol = none) :
    fa.Step symbol =
      ⟨default, some (.undefinedTransition fa.currentState symbol), fa⟩ := by
  simp [FiniteAutomaton.Step, h, hl]

theorem Step_of_lookup_some [Inhabited Q] (fa : FiniteAutomaton Q S)
    (symbol : S) (target : Q) (h : symbol ∈ fa.alphabet)
    (hl : lookupTransition fa.transitions fa.currentState symbol
      = some target) :
    fa.Step symbol = ⟨target, none, { fa with currentState := target }⟩ := by
  simp [FiniteAutomaton.Step, h, hl]

theorem Step_error_frame [Inhabited Q] (fa : FiniteAutomaton Q S) (symbol : S)
    (e : StepError Q S) (h : (fa.Step symbol).error = some e) :
    (fa.Step symbol).automaton = fa ∧ (fa.Step symbol).value = default := by
  by_cases hm : symbol ∈ fa.alphabet
  · rcases hl : lookupTransition fa.transitions fa.currentState symbol
      with _ | t
    · rw [Step_of_lookup_none fa symbol hm hl]; exact ⟨rfl, rfl⟩
    · rw [Step_of_lookup_some fa symbol t hm hl] at h; simp at h
  · rw [Step_of_not_mem fa symbol hm]; exact ⟨rfl, rfl⟩

theorem Step_ok_value [Inhabited Q] (fa : FiniteAutomaton Q S) (symbol : S)
    (h : (fa.Step symbol).error = none) :
    (fa.Step symbol).value = (fa.Step symbol).automaton.currentState := by
  by_cases hm : symbol ∈ fa.alphabet
  · rcases hl : lookupTransition fa.transitions fa.currentState symbol
      with _ | t
    · rw [Step_of_lookup_none fa symbol hm hl] at h; simp at h
    · rw [Step_of_lookup_some fa symbol t hm hl]
  · rw [Step_of_not_mem fa symbol hm] at h; simp at h

theorem Step_core [Inhabited Q] (fa : FiniteAutomaton Q S) (symbol : S) :
    (fa.Step symbol).automaton.states = fa.states ∧
    (fa.Step symbol).automaton.alphabet = fa.alphabet ∧
    (fa.Step symbol).automaton.initialState = fa.initialState ∧
    (fa.Step symbol).automaton.acceptingStates = fa.acceptingStates ∧
    (fa.Step symbol).automaton.transitions = fa.transitions := by
  by_cases hm : symbol ∈ fa.alphabet
  · rcases hl : lookupTransition fa.transitions fa.currentState symbol
      with _ | t
    · rw [Step_of_lookup_none fa symbol hm hl]; exact ⟨rfl, rfl, rfl, rfl, rfl⟩
    · rw [Step_of_lookup_some fa symbol t hm hl]; exact ⟨rfl, rfl, rfl, rfl, rfl⟩
  · rw [Step_of_not_mem fa symbol hm]; exact ⟨rfl, rfl, rfl, rfl, rfl⟩

theorem processLoop_core [Inhabited Q] (input : List S)
    (fa : FiniteAutomaton Q S) :
    (processLoop fa input).2.states = fa.states ∧
    (processLoop fa input).2.alphabet = fa.alphabet ∧
    (processLoop fa input).2.initialState = fa.initialState ∧
    (processLoop fa input).2.acceptingStates = fa.acceptingStates ∧
    (processLoop fa input).2.transitions = fa.transitions := by
  induction input generalizing fa with
  | nil => exact ⟨rfl, rfl, rfl, rfl, rfl⟩
  | cons symbol rest ih =>
    rcases he : (fa.Step symbol).error with _ | e
    · have hs := Step_core fa symbol
      have hrec := ih (fa.Step symbol).automaton
      simp only [processLoop, he]
      exact ⟨hrec.1.trans hs.1, hrec.2.1.trans hs.2.1,
             hrec.2.2.1.trans hs.2.2.1, hrec.2.2.2.1.trans hs.2.2.2.1,
             hrec.2.2.2.2.trans hs.2.2.2.2⟩
    · have hfr := (Step_error_frame fa symbol e he).1
      simp [processLoop, he, hfr]

theorem lookupTransition_mem (trans : List (Q × S × Q)) (q : Q) (s : S)
    (t : Q) (h : lookupTransition trans q s = some t) : (q, s, t) ∈ trans := by
  obtain ⟨e, hmem, hf⟩ := List.exists_of_findSome?_eq_some h
  by_cases hc : e.1 = q ∧ e.2.1 = s
  · simp only [hc, if_true, Option.some.injEq] at hf
    obtain ⟨h1, h2⟩ := hc
    have : e = (q, s, t) := by
      obtain ⟨a, b, c⟩ := e
      simp_all
    rwa [this] at hmem
  · simp [hc] at hf

theorem Validate_none_spec (fa : FiniteAutomaton Q S)
    (hv : fa.Validate = none) :
    fa.initialState ∈ fa.states ∧
    (∀ q ∈ fa.acceptingStates, q ∈ fa.states) ∧
    (∀ e ∈ fa.transitions,
      e.1 ∈ fa.states ∧ e.2.1 ∈ fa.alphabet ∧ e.2.2 ∈ fa.states) := by
  unfold FiniteAutomaton.Validate at hv
  by_cases h0 : fa.initialState ∉ fa.states
  · simp [h0] at hv
  · simp only [h0, if_false] at hv
    rcases hf : fa.acceptingStates.find? (fun state => decide (state ∉ fa.states))
      with _ | q
    · rw [hf] at hv
      simp only at hv
      refine ⟨by simpa using h0, ?_, ?_⟩
      · intro q hq
        have := List.find?_eq_none.mp hf q hq
        simpa using this
      · intro e he
        have hnone := (List.findSome?_eq_none_iff).mp hv e he
        by_cases h1 : e.1 ∉ fa.states
        · simp [h1] at hnone
        · by_cases h2 : e.2.1 ∉ fa.alphabet
          · simp [h1, h2] at hnone
          · by_cases h3 : e.2.2 ∉ fa.states
            · simp [h1, h2, h3] at hnone
            · exact ⟨by simpa using h1, by simpa using h2, by simpa using h3⟩
    · rw [hf] at hv; simp at hv

/- ------------------------------------------------------------------ -/
/- Claim theorems                                                      -/
/- ------------------------------------------------------------------ -/

/-- C1: `Step` fails with a symbol-not-in-alphabet error when the symbol is
outside the alphabet (checked first, independent of the current state);
otherwise it looks up `(currentState, symbol)` and fails with an
undefined-transition error when no entry exists; otherwise it sets
`currentState` to the looked-up target and returns that state with no
error. -/
theorem C1_step_semantics [Inhabited Q] (fa : FiniteAutomaton Q S)
    (symbol : S) (target : Q) :
    (symbol ∉ fa.alphabet →
      fa.Step symbol = ⟨default, some (.symbolNotInAlphabet symbol), fa⟩) ∧
    (symbol ∈ fa.alphabet →
      lookupTransition fa.transitions fa.currentState symbol = none →
      fa.Step symbol =
        ⟨default, some (.undefinedTransition fa.currentState symbol), fa⟩) ∧
    (symbol ∈ fa.alphabet →
      lookupTransition fa.transitions fa.currentState symbol = some target →
      fa.Step symbol = ⟨target, none, { fa with currentState := target }⟩) :=
  ⟨fun h => Step_of_not_mem fa symbol h,
   fun h hl => Step_of_lookup_none fa symbol h hl,
   fun h hl => Step_of_lookup_some fa symbol target h hl⟩

/-- Witness for C1 at the ends-in-b automaton and symbol `b`. -/
theorem C1_step_semantics_witness :
    ('b' ∈ endsInB.alphabet ∧
      lookupTransition endsInB.transitions endsInB.currentState 'b'
        = some "q1") ∧
    endsInB.Step 'b' = ⟨"q1", none, { endsInB with currentState := "q1" }⟩ :=
  ⟨⟨by decide, by decide⟩,
   (C1_step_semantics endsInB 'b' "q1").2.2 (by decide) (by decide)⟩

/-- C10: whenever `Step` returns an error, the state value returned
alongside the error is the zero value of `Q` (modelled by `default`; the
empty string for string states), not the current state. -/
theorem C10_error_returns_zero_value [Inhabited Q]
    (fa : FiniteAutomaton Q S) (symbol : S) (e : StepError Q S)
    (h : (fa.Step symbol).error = some e) :
    (fa.Step symbol).value = default :=
  (Step_error_frame fa symbol e h).2

/-- Witness for C10: stepping `z` (not in the alphabet) returns `default`
(the empty string). -/
theorem C10_error_returns_zero_value_witness :
    (endsInB.Step 'z').error
        = some (StepError.symbolNotInAlphabet 'z') ∧
    (endsInB.Step 'z').value = default :=
  ⟨by decide,
   C10_error_returns_zero_value endsInB 'z' (.symbolNotInAlphabet 'z')
     (by decide)⟩

/-- C6: when `Step` errors the automaton is left unchanged (its
`currentState` is whatever it was before), it can be `Reset` and reused, and
both step-level errors propagate unchanged through the `ProcessInput` and
`ProcessInputWithTrace` loops, aborting further symbol consumption. -/
theorem C6_error_aborts_and_preserves [Inhabited Q]
    (fa : FiniteAutomaton Q S) (symbol : S) (e : StepError Q S)
    (rest : List S) (acc : List Q)
    (h : (fa.Step symbol).error = some e) :
    (fa.Step symbol).automaton = fa ∧
    (fa.Step symbol).automaton.currentState = fa.currentState ∧
    (fa.Step symbol).automaton.Reset.currentState = fa.initialState ∧
    processLoop fa (symbol :: rest) = ((false, some e), fa) ∧
    traceLoop fa acc (symbol :: rest) = ((acc, false, some e), fa) := by
  have hfr := (Step_error_frame fa symbol e h).1
  refine ⟨hfr, by rw [hfr], by rw [hfr]; rfl, ?_, ?_⟩
  · simp only [processLoop, h, hfr]
  · simp only [traceLoop, h, hfr]

/-- Witness for C6 at the ends-in-b automaton with the rejected symbol `z`
followed by one more symbol that is never consumed. -/
theorem C6_error_aborts_and_preserves_witness :
    (endsInB.Step 'z').error
        = some (StepError.symbolNotInAlphabet 'z') ∧
    ((endsInB.Step 'z').automaton = endsInB ∧
      (endsInB.Step 'z').automaton.currentState = endsInB.currentState ∧
      (endsInB.Step 'z').automaton.Reset.currentState
        = endsInB.initialState ∧
      processLoop endsInB ['z', 'a']
        = ((false, some (StepError.symbolNotInAlphabet 'z')), endsInB) ∧
      traceLoop endsInB ["q0"] ['z', 'a']
        = ((["q0"], false, some (StepError.symbolNotInAlphabet 'z')),
            endsInB)) :=
  ⟨by decide,
   C6_error_aborts_and_preserves endsInB 'z' (.symbolNotInAlphabet 'z')
     ['a'] ["q0"] (by decide)⟩

/-- C3: `ProcessInput` resets before consuming input, so its
`(accepted, error)` result is independent of the `currentState` left by
prior manual `Step` calls, and running it again on the automaton it returns
yields the identical result. -/
theorem C3_process_input_deterministic [Inhabited Q]
    (fa : FiniteAutomaton Q S) (input : List S) (q : Q) :
    (FiniteAutomaton.ProcessInput { fa with currentState := q } input).1 =
      (fa.ProcessInput input).1 ∧
    ((fa.ProcessInput input).2.ProcessInput input).1 =
      (fa.ProcessInput input).1 := by
  constructor
  · rfl
  · have hcore := processLoop_core input fa.Reset
    have hreset : (fa.ProcessInput input).2.Reset = fa.Reset := by
      apply FiniteAutomaton.ext
      · exact hcore.1
      · exact hcore.2.1
      · exact hcore.2.2.1
      · exact hcore.2.2.2.1
      · exact hcore.2.2.2.2
      · show (fa.ProcessInput input).2.initialState = fa.initialState
        exact hcore.2.2.1
    show (processLoop (fa.ProcessInput input).2.Reset input).1 = _
    rw [hreset]
    rfl

/-- C7: on an automaton accepted by `Validate` whose cursor is in the state
set, `Reset` moves the cursor to the initial state (a member of the state
set) and every successful `Step` keeps the cursor in the state set. -/
theorem C7_current_state_invariant [Inhabited Q] (fa : FiniteAutomaton Q S)
    (symbol : S) (hv : fa.Validate = none)
    (hc : fa.currentState ∈ fa.states)
    (he : (fa.Step symbol).error = none) :
    fa.Reset.currentState = fa.initialState ∧
    fa.Reset.currentState ∈ fa.states ∧
    (fa.Step symbol).automaton.currentState ∈ fa.states := by
  obtain ⟨hinit, _, htrans⟩ := Validate_none_spec fa hv
  refine ⟨rfl, hinit, ?_⟩
  by_cases hm : symbol ∈ fa.alphabet
  · rcases hl : lookupTransition fa.transitions fa.currentState symbol
      with _ | t
    · rw [Step_of_lookup_none fa symbol hm hl] at he; simp at he
    · rw [Step_of_lookup_some fa symbol t hm hl]
      have hmem := lookupTransition_mem fa.transitions fa.currentState
        symbol t hl
      exact (htrans _ hmem).2.2
  · rw [Step_of_not_mem fa symbol hm] at he; simp at he

theorem reachedStates_length_le [Inhabited Q] (input : List S)
    (fa : FiniteAutomaton Q S) :
    (reachedStates fa input).length ≤ input.length := by
  induction input generalizing fa with
  | nil => simp [reachedStates]
  | cons symbol rest ih =>
    rcases he : (fa.Step symbol).error with _ | e <;>
      simp only [reachedStates, he]
    · simpa using ih (fa.Step symbol).automaton
    · simp

theorem traceLoop_spec [Inhabited Q] (input : List S)
    (fa : FiniteAutomaton Q S) (acc : List Q) :
    (traceLoop fa acc input).1.1 = acc ++ reachedStates fa input ∧
    ((traceLoop fa acc input).1.2.2 = none ↔
      (reachedStates fa input).length = input.length) := by
  induction input generalizing fa acc with
  | nil => simp [traceLoop, reachedStates]
  | cons symbol rest ih =>
    rcases he : (fa.Step symbol).error with _ | e
    · have hval := Step_ok_value fa symbol he
      have hrec := ih (fa.Step symbol).automaton
        (acc ++ [(fa.Step symbol).automaton.currentState])
      simp only [traceLoop, reachedStates, he]
      constructor
      · rw [hrec.1, hval]; simp
      · rw [hrec.2]; simp
    · have hle := reachedStates_length_le rest (fa.Step symbol).automaton
      simp [traceLoop, reachedStates, he]

/-- C2 (amended): for `fsm/automaton.go`, the trace starts with the
post-reset initial state, is extended exactly by the states reached by each
successful step, has length `n + 1` on full success, and has length `i + 1`
on an error after `i` successful steps.  The pre-validating variant of the
parallel automaton copy behaves the same when every input symbol is in the
alphabet, but returns an EMPTY trace when some symbol is not. -/
theorem C2_trace_shape_amended [Inhabited Q] (fa : FiniteAutomaton Q S)
    (input : List S) (i : Nat) (s : S) :
    (fa.ProcessInputWithTrace input).1.1
        = fa.initialState :: reachedStates fa.Reset input ∧
    ((fa.ProcessInputWithTrace input).1.2.2 = none →
      (fa.ProcessInputWithTrace input).1.1.length = input.length + 1) ∧
    ((fa.ProcessInputWithTrace input).1.2.2 ≠ none →
      (reachedStates fa.Reset input).length < input.length ∧
      (fa.ProcessInputWithTrace input).1.1.length
        = (reachedStates fa.Reset input).length + 1) ∧
    (validateInputSeq fa.alphabet 0 input = none →
      (ProcessInputWithTraceValidated fa input).1.1
        = (fa.ProcessInputWithTrace input).1.1) ∧
    (validateInputSeq fa.alphabet 0 input = some (i, s) →
      (ProcessInputWithTraceValidated fa input).1.1 = []) := by
  have hspec := traceLoop_spec input fa.Reset [fa.Reset.currentState]
  have htrace : (fa.ProcessInputWithTrace input).1.1
      = fa.initialState :: reachedStates fa.Reset input := by
    show (traceLoop fa.Reset [fa.Reset.currentState] input).1.1 = _
    rw [hspec.1]; rfl
  refine ⟨htrace, ?_, ?_, ?_, ?_⟩
  · intro hnone
    have hlen := hspec.2.mp hnone
    rw [htrace]; simp [hlen]
  · intro hsome
    have hne : ¬ (reachedStates fa.Reset input).length = input.length :=
      fun h => hsome (hspec.2.mpr h)
    have hle := reachedStates_length_le input fa.Reset
    refine ⟨by omega, by rw [htrace]; simp⟩
  · intro hok
    show (ProcessInputWithTraceValidated fa input).1.1 = _
    unfold ProcessInputWithTraceValidated
    rw [hok]
    rfl
  · intro hbad
    unfold ProcessInputWithTraceValidated
    rw [hbad]

/-- Witness for C2 at the ends-in-b automaton on input `ab` (fully
consumed, trace `[q0, q0, q1]`). -/
theorem C2_trace_shape_amended_witness :
    ((endsInB.ProcessInputWithTrace ['a', 'b']).1.2.2 = none ∧
      validateInputSeq endsInB.alphabet 0 ['a', 'b'] = none) ∧
    ((endsInB.ProcessInputWithTrace ['a', 'b']).1.1
        = endsInB.initialState
            :: reachedStates endsInB.Reset ['a', 'b'] ∧
      ((endsInB.ProcessInputWithTrace ['a', 'b']).1.2.2 = none →
        (endsInB.ProcessInputWithTrace ['a', 'b']).1.1.length = 2 + 1) ∧
      ((endsInB.ProcessInputWithTrace ['a', 'b']).1.2.2 ≠ none →
        (reachedStates endsInB.Reset ['a', 'b']).length < 2 ∧
        (endsInB.ProcessInputWithTrace ['a', 'b']).1.1.length
          = (reachedStates endsInB.Reset ['a', 'b']).length + 1) ∧
      (validateInputSeq endsInB.alphabet 0 ['a', 'b'] = none →
        (ProcessInputWithTraceValidated endsInB ['a', 'b']).1.1
          = (endsInB.ProcessInputWithTrace ['a', 'b']).1.1) ∧
      (validateInputSeq endsInB.alphabet 0 ['a', 'b'] = some (0, 'z') →
        (ProcessInputWithTraceValidated endsInB ['a', 'b']).1.1 = [])) :=
  ⟨⟨by decide, by decide⟩,
   C2_trace_shape_amended endsInB ['a', 'b'] 0 'z'⟩

/-- C2 counterexample: the pre-validating `ProcessInputWithTrace` of the
parallel automaton copy, fed one symbol outside the alphabet, errors at
position 0 yet returns an empty trace instead of the claimed partial trace
of length 1. -/
theorem C2_trace_shape_counterexample :
    (ProcessInputWithTraceValidated tinyFA ['b']).1.2.2
        = some (ProcessError.invalidInput 0 'b') ∧
    (ProcessInputWithTraceValidated tinyFA ['b']).1.1 = [] ∧
    ¬ (ProcessInputWithTraceValidated tinyFA ['b']).1.1.length = 0 + 1 :=
  ⟨by decide, by decide, by decide⟩

/-- C4 counterexample: one state, EMPTY alphabet, no transitions — the
built-in `Validate` reports nothing and the legacy `Builder.Build` returns
the automaton as usable, although the claim requires every empty-alphabet
automaton to fail validation and `Build`. -/
theorem C4_empty_alphabet_counterexample :
    emptyAlphabetFA.alphabet = [] ∧
    emptyAlphabetFA.Validate = none ∧
    Builder.Build emptyAlphabetFA = .ok emptyAlphabetFA :=
  ⟨rfl, by decide, by rfl⟩

/-- C4 (amended): empty `states` and empty `alphabet` each always produce a
violation from the `InputValidator` and an error from the validator-backed
`AutomatonBuilder.Build`; empty `states` also fails the built-in `Validate`
and the legacy `Builder.Build`, while an empty alphabet alone can slip
through the legacy path. -/
theorem C4_empty_rejected_amended [Inhabited Q] [GoStateRepr Q]
    (config : ValidatorConfig) (fa : FiniteAutomaton Q S)
    (fa2 fa3 fa4 : FiniteAutomaton Q S) :
    (fa.states = [] →
      Violation.emptyStates ∈ InputValidator.Validate config fa ∧
      fa.Validate ≠ none ∧
      Builder.Build fa ≠ .ok fa2 ∧
      AutomatonBuilder.Build config fa ≠ .ok fa3) ∧
    (fa.alphabet = [] →
      Violation.emptyAlphabet ∈ InputValidator.Validate config fa ∧
      AutomatonBuilder.Build config fa ≠ .ok fa4) := by
  constructor
  · intro hs
    have hrule : validateNonEmptyStates fa = some .emptyStates := by
      simp [validateNonEmptyStates, hs]
    have hmem : Violation.emptyStates ∈ InputValidator.Validate config fa :=
      List.mem_filterMap.mpr
        ⟨validateNonEmptyStates, by simp [NewInputValidatorRules], hrule⟩
    have hval : fa.Validate ≠ none := by
      have hnotin : fa.initialState ∉ fa.states := by simp [hs]
      simp [FiniteAutomaton.Validate, hnotin]
    refine ⟨hmem, hval, ?_, ?_⟩
    · intro hbuild
      unfold Builder.Build at hbuild
      rcases hv : fa.Validate with _ | v
      · exact hval hv
      · rw [hv] at hbuild; simp at hbuild
    · intro hbuild
      unfold AutomatonBuilder.Build at hbuild
      have hne : InputValidator.Validate config fa ≠ [] :=
        List.ne_nil_of_mem hmem
      simp [hne] at hbuild
  · intro ha
    have hrule : validateNonEmptyAlphabet fa = some .emptyAlphabet := by
      simp [validateNonEmptyAlphabet, ha]
    have hmem : Violation.emptyAlphabet ∈ InputValidator.Validate config fa :=
      List.mem_filterMap.mpr
        ⟨validateNonEmptyAlphabet, by simp [NewInputValidatorRules], hrule⟩
    refine ⟨hmem, ?_⟩
    intro hbuild
    unfold AutomatonBuilder.Build at hbuild
    have hne : InputValidator.Validate config fa ≠ [] :=
      List.ne_nil_of_mem hmem
    simp [hne] at hbuild

/-- Witness for C4 on a zero-state automaton (and the empty-alphabet
conjunct on `emptyAlphabetFA`). -/
theorem C4_empty_rejected_amended_witness :
    (emptyAlphabetFA.alphabet = [] ∧
      Violation.emptyAlphabet
        ∈ InputValidator.Validate DefaultValidatorConfig emptyAlphabetFA ∧
      AutomatonBuilder.Build DefaultValidatorConfig emptyAlphabetFA
        ≠ .ok emptyAlphabetFA) :=
  ⟨rfl,
   (C4_empty_rejected_amended DefaultValidatorConfig emptyAlphabetFA
      emptyAlphabetFA emptyAlphabetFA emptyAlphabetFA).2 rfl⟩

/-- C5 counterexample: `twoDefectFA` has both a dangling accepting state
and a dangling transition target, yet a single `FiniteAutomaton.Validate`
call reports only the first; the rule-list validator reports both. -/
theorem C5_short_circuit_counterexample :
    ("X" ∈ twoDefectFA.acceptingStates ∧ "X" ∉ twoDefectFA.states) ∧
    (("q0", 'a', "Z") ∈ twoDefectFA.transitions ∧
      "Z" ∉ twoDefectFA.states) ∧
    twoDefectFA.Validate = some (.acceptingNotInStates "X") ∧
    InputValidator.Validate DefaultValidatorConfig twoDefectFA
      = [.acceptingNotInStates "X", .transitionToNotInStates "Z"] :=
  ⟨⟨by decide, by decide⟩, ⟨by decide, by decide⟩, by decide, by decide⟩

/-- C5 (amended): the rule-list validator (`InputValidator.Validate`)
collects every configured rule violation without short-circuiting or
truncation; the built-in `FiniteAutomaton.Validate` instead stops at the
first failing check. -/
theorem C5_collects_all_amended [Inhabited Q] [GoStateRepr Q]
    (config : ValidatorConfig) (fa : FiniteAutomaton Q S)
    (rule : FiniteAutomaton Q S → Option (Violation Q S))
    (v : Violation Q S) (hr : rule ∈ NewInputValidatorRules config)
    (hv : rule fa = some v) :
    v ∈ InputValidator.Validate config fa :=
  List.mem_filterMap.mpr ⟨rule, hr, hv⟩

/-- Witness for C5: the dangling-accepting-state violation of `twoDefectFA`
is collected by the validator. -/
theorem C5_collects_all_amended_witness :
    (validateAcceptingStatesInStates twoDefectFA
        = some (Violation.acceptingNotInStates "X")) ∧
    Violation.acceptingNotInStates "X"
      ∈ InputValidator.Validate DefaultValidatorConfig twoDefectFA :=
  ⟨by decide,
   C5_collects_all_amended DefaultValidatorConfig twoDefectFA
     validateAcceptingStatesInStates (Violation.acceptingNotInStates "X")
     (by simp [NewInputValidatorRules]) (by decide)⟩

/-- C8: the completeness rule as coded compares the looked-up target with
the ZERO VALUE of the state type, so the complete table of `zeroTargetFA`
(whose pair `(q0, a)` maps to the zero value `""`) is reported as missing a
transition, contradicting the documented meaning of the rule. -/
theorem C8_zero_value_bug :
    (∀ state ∈ zeroTargetFA.states, ∀ symbol ∈ zeroTargetFA.alphabet,
      (lookupTransition zeroTargetFA.transitions state symbol).isSome) ∧
    validateCompleteTransitions zeroTargetFA
      = some (.missingTransition "q0" 'a') :=
  ⟨by decide, by decide⟩

theorem mem_successors (trans : List (Q × S × Q)) (q t : Q) :
    t ∈ successors trans q ↔ ∃ s, (q, s, t) ∈ trans := by
  simp only [successors, List.mem_map, List.mem_filter]
  constructor
  · rintro ⟨e, ⟨hmem, hq⟩, rfl⟩
    obtain ⟨a, b, c⟩ := e
    simp only [decide_eq_true_eq] at hq
    subst hq
    exact ⟨b, hmem⟩
  · rintro ⟨s, hmem⟩
    exact ⟨(q, s, t), ⟨hmem, by simp⟩, rfl⟩

theorem enqueueNew_mem_fst (ts reach queue : List Q) (x : Q) :
    x ∈ (enqueueNew reach queue ts).1 ↔ x ∈ reach ∨ x ∈ ts := by
  induction ts generalizing reach queue with
  | nil => simp [enqueueNew]
  | cons t ts ih =>
    by_cases ht : t ∈ reach
    · rw [enqueueNew, if_pos ht, ih]
      constructor
      · rintro (h | h)
        · exact Or.inl h
        · exact Or.inr (List.mem_cons_of_mem _ h)
      · rintro (h | h)
        · exact Or.inl h
        · rcases List.mem_cons.mp h with rfl | h
          · exact Or.inl ht
          · exact Or.inr h
    · rw [enqueueNew, if_neg ht, ih]
      simp only [List.mem_append, List.mem_singleton, List.mem_cons]
      tauto

theorem enqueueNew_mem_snd (ts reach queue : List Q) (x : Q) :
    x ∈ (enqueueNew reach queue ts).2 ↔
      x ∈ queue ∨ (x ∈ ts ∧ x ∉ reach) := by
  induction ts generalizing reach queue with
  | nil => simp [enqueueNew]
  | cons t ts ih =>
    by_cases ht : t ∈ reach
    · rw [enqueueNew, if_pos ht, ih]
      constructor
      · rintro (h | ⟨h1, h2⟩)
        · exact Or.inl h
        · exact Or.inr ⟨List.mem_cons_of_mem _ h1, h2⟩
      · rintro (h | ⟨h1, h2⟩)
        · exact Or.inl h
        · rcases List.mem_cons.mp h1 with rfl | h1
          · exact absurd ht h2
          · exact Or.inr ⟨h1, h2⟩
    · rw [enqueueNew, if_neg ht, ih]
      simp only [List.mem_append, List.mem_cons, List.not_mem_nil, or_false]
      by_cases hx : x = t
      · subst hx; simp [ht]
      · constructor
        · rintro ((h | h) | ⟨h1, h2⟩)
          · exact Or.inl h
          · exact absurd h hx
          · exact Or.inr ⟨Or.inr h1, fun hr => h2 (Or.inl hr)⟩
        · rintro (h | ⟨h1, h2⟩)
          · exact Or.inl (Or.inl h)
          · rcases h1 with rfl | h1
            · exact absurd rfl hx
            · exact Or.inr ⟨h1, fun hr2 =>
                hr2.elim (fun h3 => h2 h3) (fun h3 => hx h3)⟩

theorem enqueueNew_nodup (ts reach queue : List Q) (h : reach.Nodup) :
    (enqueueNew reach queue ts).1.Nodup := by
  induction ts generalizing reach queue with
  | nil => exact h
  | cons t ts ih =>
    by_cases ht : t ∈ reach
    · rw [enqueueNew, if_pos ht]; exact ih reach queue h
    · rw [enqueueNew, if_neg ht]
      exact ih _ _ (by simp [List.nodup_append, h, ht])

theorem enqueueNew_length (ts reach queue : List Q) :
    (enqueueNew reach queue ts).1.length + queue.length
      = (enqueueNew reach queue ts).2.length + reach.length := by
  induction ts generalizing reach queue with
  | nil => simp [enqueueNew]; omega
  | cons t ts ih =>
    by_cases ht : t ∈ reach
    · rw [enqueueNew, if_pos ht]; exact ih reach queue
    · rw [enqueueNew, if_neg ht]
      have := ih (reach ++ [t]) (queue ++ [t])
      simp only [List.length_append, List.length_singleton] at this
      omega

theorem bfsLoop_sound (trans : List (Q × S × Q)) (start : Q)
    (fuel : Nat) :
    ∀ (reach queue : List Q),
      (∀ x ∈ reach, Reachable trans start x) →
      (∀ x ∈ queue, x ∈ reach) →
      ∀ x ∈ bfsLoop trans fuel reach queue, Reachable trans start x := by
  induction fuel with
  | zero =>
    intro reach queue hr _ x hx
    exact hr x hx
  | succ fuel ih =>
    intro reach queue hr hq
    cases queue with
    | nil => intro x hx; exact hr x hx
    | cons current rest =>
      intro x hx
      have hcur : Reachable trans start current :=
        hr current (hq current (List.mem_cons_self _ _))
      refine ih (enqueueNew reach rest (successors trans current)).1
        (enqueueNew reach rest (successors trans current)).2 ?_ ?_ x ?_
      · intro y hy
        rcases (enqueueNew_mem_fst _ _ _ y).mp hy with h | h
        · exact hr y h
        · exact Reachable.step hcur ((mem_successors trans current y).mp h)
      · intro y hy
        rcases (enqueueNew_mem_snd _ _ _ y).mp hy with h | ⟨h1, _⟩
        · exact (enqueueNew_mem_fst _ _ _ y).mpr
            (Or.inl (hq y (List.mem_cons_of_mem _ h)))
        · exact (enqueueNew_mem_fst _ _ _ y).mpr (Or.inr h1)
      · exact hx

theorem bfsLoop_complete (trans : List (Q × S × Q)) (U : List Q)
    (hU : ∀ q t : Q, t ∈ successors trans q → t ∈ U) (fuel : Nat) :
    ∀ (reach queue : List Q),
      reach.Nodup →
      (∀ x ∈ reach, x ∈ U) →
      (∀ x ∈ queue, x ∈ reach) →
      (∀ q ∈ reach, q ∈ queue ∨ ∀ t ∈ successors trans q, t ∈ reach) →
      queue.length + U.length ≤ fuel + reach.length →
      (∀ x ∈ reach, x ∈ bfsLoop trans fuel reach queue) ∧
      (∀ q ∈ bfsLoop trans fuel reach queue, ∀ t ∈ successors trans q,
        t ∈ bfsLoop trans fuel reach queue) := by
  induction fuel with
  | zero =>
    intro reach queue hnd hrU hqr hclosed hm
    have hle : reach.length ≤ U.length :=
      (List.subperm_of_subset hnd hrU).length_le
    have hq : queue = [] := by
      cases queue with
      | nil => rfl
      | cons a l => simp only [List.length_cons] at hm; omega
    subst hq
    refine ⟨fun x hx => hx, ?_⟩
    intro q hq t ht
    rcases hclosed q hq with h | h
    · simp at h
    · exact h t ht
  | succ fuel ih =>
    intro reach queue hnd hrU hqr hclosed hm
    cases queue with
    | nil =>
      refine ⟨fun x hx => hx, ?_⟩
      intro q hq t ht
      rcases hclosed q hq with h | h
      · simp at h
      · exact h t ht
    | cons current rest =>
      have hmemf := enqueueNew_mem_fst (successors trans current) reach rest
      have hmems := enqueueNew_mem_snd (successors trans current) reach rest
      have hnd2 := enqueueNew_nodup (successors trans current) reach rest hnd
      have hU2 : ∀ x ∈ (enqueueNew reach rest (successors trans current)).1,
          x ∈ U := by
        intro x hx
        rcases (hmemf x).mp hx with h | h
        · exact hrU x h
        · exact hU current x h
      have hq2 : ∀ x ∈ (enqueueNew reach rest (successors trans current)).2,
          x ∈ (enqueueNew reach rest (successors trans current)).1 := by
        intro x hx
        rcases (hmems x).mp hx with h | ⟨h1, _⟩
        · exact (hmemf x).mpr (Or.inl (hqr x (List.mem_cons_of_mem _ h)))
        · exact (hmemf x).mpr (Or.inr h1)
      have hcl2 : ∀ q ∈ (enqueueNew reach rest (successors trans current)).1,
          q ∈ (enqueueNew reach rest (successors trans current)).2 ∨
          ∀ t ∈ successors trans q,
            t ∈ (enqueueNew reach rest (successors trans current)).1 := by
        intro q hq
        by_cases hqr2 : q ∈ reach
        · rcases hclosed q hqr2 with hin | hsucc
          · rcases List.mem_cons.mp hin with rfl | hin
            · exact Or.inr fun t ht => (hmemf t).mpr (Or.inr ht)
            · exact Or.inl ((hmems q).mpr (Or.inl hin))
          · exact Or.inr fun t ht => (hmemf t).mpr (Or.inl (hsucc t ht))
        · have hqts : q ∈ successors trans current :=
            ((hmemf q).mp hq).resolve_left hqr2
          exact Or.inl ((hmems q).mpr (Or.inr ⟨hqts, hqr2⟩))
      have hlen := enqueueNew_length (successors trans current) reach rest
      have hm2 : (enqueueNew reach rest (successors trans current)).2.length
          + U.length ≤ fuel
            + (enqueueNew reach rest (successors trans current)).1.length := by
        simp only [List.length_cons] at hm
        omega
      have key := ih (enqueueNew reach rest (successors trans current)).1
        (enqueueNew reach rest (successors trans current)).2
        hnd2 hU2 hq2 hcl2 hm2
      have hstep : bfsLoop trans (fuel + 1) reach (current :: rest)
          = bfsLoop trans fuel
              (enqueueNew reach rest (successors trans current)).1
              (enqueueNew reach rest (successors trans current)).2 := rfl
      rw [hstep]
      exact ⟨fun x hx => key.1 x ((hmemf x).mpr (Or.inl hx)), key.2⟩

theorem mem_reachableStates (fa : FiniteAutomaton Q S) (x : Q) :
    x ∈ reachableStates fa ↔
      Reachable fa.transitions fa.initialState x := by
  constructor
  · intro hx
    refine bfsLoop_sound fa.transitions fa.initialState
      (bfsFuel fa.transitions) [fa.initialState] [fa.initialState]
      ?_ ?_ x hx
    · intro y hy
      rcases List.mem_singleton.mp hy with rfl
      exact Reachable.refl
    · exact fun y hy => hy
  · intro hx
    have hU : ∀ q t : Q, t ∈ successors fa.transitions q →
        t ∈ fa.initialState :: fa.transitions.map (fun e => e.2.2) := by
      intro q t ht
      obtain ⟨s, hmem⟩ := (mem_successors fa.transitions q t).mp ht
      exact List.mem_cons_of_mem _
        (List.mem_map.mpr ⟨(q, s, t), hmem, rfl⟩)
    have key := bfsLoop_complete fa.transitions
      (fa.initialState :: fa.transitions.map (fun e => e.2.2)) hU
      (bfsFuel fa.transitions) [fa.initialState] [fa.initialState]
      (List.nodup_singleton _)
      (by intro y hy; rcases List.mem_singleton.mp hy with rfl;
          exact List.mem_cons_self _ _)
      (fun y hy => hy)
      (by intro q hq; exact Or.inl hq)
      (by simp only [List.length_singleton, List.length_cons,
            List.length_map, bfsFuel]; omega)
    induction hx with
    | refl =>
      exact key.1 fa.initialState (List.mem_singleton.mpr rfl)
    | step hq ht ih =>
      exact key.2 _ ih _ ((mem_successors _ _ _).mpr ht)

theorem validateNoUnreachableStates_spec (fa : FiniteAutomaton Q S) :
    validateNoUnreachableStates fa ≠ none ↔
      ∃ q ∈ fa.states,
        ¬ Reachable fa.transitions fa.initialState q := by
  unfold validateNoUnreachableStates
  constructor
  · intro h
    rcases hv : fa.states.findSome? (fun state =>
        if state ∉ reachableStates fa
        then some (Violation.unreachableState state) else none) with _ | v
    · exact absurd hv h
    · obtain ⟨q, hq, hf⟩ := List.exists_of_findSome?_eq_some hv
      by_cases hr : q ∈ reachableStates fa
      · simp [hr] at hf
      · exact ⟨q, hq, fun hreach =>
          hr ((mem_reachableStates fa q).mpr hreach)⟩
  · rintro ⟨q, hq, hnr⟩ hnone
    have := List.findSome?_eq_none_iff.mp hnone q hq
    have hr : q ∉ reachableStates fa :=
      fun h => hnr ((mem_reachableStates fa q).mp h)
    simp [hr] at this

theorem shape_nonEmptyStates (fa : FiniteAutomaton Q S) (q : Q)
    (h : validateNonEmptyStates fa = some (Violation.unreachableState q)) :
    False := by
  unfold validateNonEmptyStates at h
  split at h <;> simp_all

theorem shape_nonEmptyAlphabet (fa : FiniteAutomaton Q S) (q : Q)
    (h : validateNonEmptyAlphabet fa = some (Violation.unreachableState q)) :
    False := by
  unfold validateNonEmptyAlphabet at h
  split at h <;> simp_all

theorem shape_initialInStates (fa : FiniteAutomaton Q S) (q : Q)
    (h : validateInitialStateInStates fa
      = some (Violation.unreachableState q)) : False := by
  unfold validateInitialStateInStates at h
  split at h <;> simp_all

theorem shape_acceptingInStates (fa : FiniteAutomaton Q S) (q : Q)
    (h : validateAcceptingStatesInStates fa
      = some (Violation.unreachableState q)) : False := by
  unfold validateAcceptingStatesInStates at h
  rcases Option.map_eq_some'.mp h with ⟨a, _, ha⟩
  simp at ha

theorem shape_transStates (fa : FiniteAutomaton Q S) (q : Q)
    (h : validateTransitionStatesInStates fa
      = some (Violation.unreachableState q)) : False := by
  unfold validateTransitionStatesInStates at h
  obtain ⟨e, _, hf⟩ := List.exists_of_findSome?_eq_some h
  split at hf <;> simp_all

theorem shape_transSymbols (fa : FiniteAutomaton Q S) (q : Q)
    (h : validateTransitionSymbolsInAlphabet fa
      = some (Violation.unreachableState q)) : False := by
  unfold validateTransitionSymbolsInAlphabet at h
  obtain ⟨e, _, hf⟩ := List.exists_of_findSome?_eq_some h
  split at hf <;> simp_all

theorem shape_maxStates (n : Nat) (fa : FiniteAutomaton Q S) (q : Q)
    (h : validateMaxStates n fa = some (Violation.unreachableState q)) :
    False := by
  unfold validateMaxStates at h
  split at h <;> simp_all

theorem shape_maxAlphabet (n : Nat) (fa : FiniteAutomaton Q S) (q : Q)
    (h : validateMaxAlphabetSize n fa
      = some (Violation.unreachableState q)) : False := by
  unfold validateMaxAlphabetSize at h
  split at h <;> simp_all

theorem shape_maxTransitions (n : Nat) (fa : FiniteAutomaton Q S) (q : Q)
    (h : validateMaxTransitions n fa
      = some (Violation.unreachableState q)) : False := by
  unfold validateMaxTransitions at h
  split at h <;> simp_all

theorem shape_complete [Inhabited Q] (fa : FiniteAutomaton Q S) (q : Q)
    (h : validateCompleteTransitions fa
      = some (Violation.unreachableState q)) : False := by
  unfold validateCompleteTransitions at h
  obtain ⟨st, _, hf⟩ := List.exists_of_findSome?_eq_some h
  obtain ⟨sy, _, hg⟩ := List.exists_of_findSome?_eq_some hf
  split at hg <;> simp_all

theorem shape_dup (fa : FiniteAutomaton Q S) (q : Q)
    (h : validateNoDuplicateTransitions fa
      = some (Violation.unreachableState q)) : False := by
  unfold validateNoDuplicateTransitions at h
  obtain ⟨e, _, hf⟩ := List.exists_of_findSome?_eq_some h
  split at hf <;> simp_all

theorem shape_naming [GoStateRepr Q] (fa : FiniteAutomaton Q S) (q : Q)
    (h : validateStateNaming fa = some (Violation.unreachableState q)) :
    False := by
  unfold validateStateNaming at h
  obtain ⟨st, _, hf⟩ := List.exists_of_findSome?_eq_some h
  rcases hs : GoStateRepr.str? st with _ | text
  · rw [hs] at hf; simp at hf
  · rw [hs] at hf
    simp only at hf
    split at hf <;> simp_all
    split at hf <;> simp_all

theorem shape_unreach (fa : FiniteAutomaton Q S) (v : Violation Q S)
    (h : validateNoUnreachableStates fa = some v) :
    ∃ q, v = Violation.unreachableState q := by
  unfold validateNoUnreachableStates at h
  obtain ⟨st, _, hf⟩ := List.exists_of_findSome?_eq_some h
  split at hf <;> simp_all
  exact ⟨st, hf.symm⟩

theorem unreach_mem_validator [Inhabited Q] [GoStateRepr Q]
    (config : ValidatorConfig) (fa : FiniteAutomaton Q S) :
    (∃ q, Violation.unreachableState q
        ∈ InputValidator.Validate config fa) ↔
      (config.StrictMode = true ∧ validateNoUnreachableStates fa ≠ none) := by
  constructor
  · rintro ⟨q, h⟩
    obtain ⟨rule, hr, hv⟩ := List.mem_filterMap.mp h
    simp only [NewInputValidatorRules, List.mem_append] at hr
    rcases hr with ((((hr | hr) | hr) | hr) | hr) | hr
    · simp only [List.mem_cons, List.not_mem_nil, or_false] at hr
      rcases hr with rfl | rfl | rfl | rfl | rfl | rfl
      · exact absurd hv (fun h2 => shape_nonEmptyStates fa q h2)
      · exact absurd hv (fun h2 => shape_nonEmptyAlphabet fa q h2)
      · exact absurd hv (fun h2 => shape_initialInStates fa q h2)
      · exact absurd hv (fun h2 => shape_acceptingInStates fa q h2)
      · exact absurd hv (fun h2 => shape_transStates fa q h2)
      · exact absurd hv (fun h2 => shape_transSymbols fa q h2)
    · by_cases hc : config.MaxStates > 0 <;> simp [hc] at hr
      rcases hr with rfl
      exact absurd hv (fun h2 => shape_maxStates _ fa q h2)
    · by_cases hc : config.MaxAlphabetSize > 0 <;> simp [hc] at hr
      rcases hr with rfl
      exact absurd hv (fun h2 => shape_maxAlphabet _ fa q h2)
    · by_cases hc : config.MaxTransitions > 0 <;> simp [hc] at hr
      rcases hr with rfl
      exact absurd hv (fun h2 => shape_maxTransitions _ fa q h2)
    · by_cases hc : config.RequireCompleteTransitions <;> simp [hc] at hr
      rcases hr with rfl
      exact absurd hv (fun h2 => shape_complete fa q h2)
    · by_cases hc : config.StrictMode <;> simp [hc] at hr
      rcases hr with rfl | rfl | rfl
      · exact ⟨by simp [hc], fun h2 => by rw [h2] at hv; simp at hv⟩
      · exact absurd hv (fun h2 => shape_dup fa q h2)
      · exact absurd hv (fun h2 => shape_naming fa q h2)
  · rintro ⟨hs, hne⟩
    rcases hv : validateNoUnreachableStates fa with _ | v
    · exact absurd hv hne
    · obtain ⟨q, rfl⟩ := shape_unreach fa v hv
      refine ⟨q, List.mem_filterMap.mpr
        ⟨validateNoUnreachableStates, ?_, hv⟩⟩
      simp [NewInputValidatorRules, hs]

/-- C9: the breadth-first search of `validateNoUnreachableStates` computes
exactly the set of states reachable from the initial state along the
transition relation; the rule reports a violation if and only if some state
of `Q` is not reachable; and in strict mode (and only then) the collected
validator output contains an unreachable-state violation exactly under the
same condition. -/
theorem C9_unreachable_iff [Inhabited Q] [GoStateRepr Q]
    (config : ValidatorConfig) (fa : FiniteAutomaton Q S) (x : Q) :
    (x ∈ reachableStates fa ↔
      Reachable fa.transitions fa.initialState x) ∧
    (validateNoUnreachableStates fa ≠ none ↔
      ∃ q ∈ fa.states,
        ¬ Reachable fa.transitions fa.initialState q) ∧
    ((∃ q, Violation.unreachableState q
        ∈ InputValidator.Validate config fa) ↔
      (config.StrictMode = true ∧
        ∃ q ∈ fa.states,
          ¬ Reachable fa.transitions fa.initialState q)) :=
  ⟨mem_reachableStates fa x,
   validateNoUnreachableStates_spec fa,
   (unreach_mem_validator config fa).trans
     (and_congr_right fun _ => validateNoUnreachableStates_spec fa)⟩

/-- Witness for C7 at the ends-in-b automaton with symbol `a`. -/
theorem C7_current_state_invariant_witness :
    (endsInB.Validate = none ∧ endsInB.currentState ∈ endsInB.states ∧
      (endsInB.Step 'a').error = none) ∧
    (endsInB.Reset.currentState = endsInB.initialState ∧
      endsInB.Reset.currentState ∈ endsInB.states ∧
      (endsInB.Step 'a').automaton.currentState ∈ endsInB.states) :=
  ⟨⟨by decide, by decide, by decide⟩,
   C7_current_state_invariant endsInB 'a' (by decide) (by decide) (by decide)⟩

end Fsm
